import Mathlib

/-!
Verification development for the template-rendering engine of
scripts/descargos_render_v2.py (the "Descarguinator" repository).

The Python engine is shallowly embedded over List Char (Python str) and a
closed value type mirroring the JSON values a case file can contain
(json.load produces bool / int / float / str / None / dict; JSON arrays do
not occur in any property studied here and are not modelled).  Functions
that scan text with a jumping cursor are written with an explicit fuel
argument (structural recursion on Nat) so that every definition reduces in
the kernel; each top-level wrapper supplies fuel strictly larger than the
input length, which makes the fuel-exhausted branches unreachable.  Those
dead branches are given the value that copies the remaining input
verbatim, which is also what the scan would do on tag-free input.

Modelling notes, stated once here:
* Python str methods strip()/lower()/upper()/title() and the regex class
  \s are modelled on the ASCII range (plus the accented i of the literal
  "sí" used by the truthiness table); no studied property involves other
  non-ASCII case mapping.
* float literals are modelled as exact rationals; IEEE-754 rounding and
  overflow-to-infinity are not modelled (no studied property depends on
  them, and tokens such as "nan"/"inf" contain no '.' and therefore never
  reach the float branch of the literal parser).
* str() of a mapping (Python would print a dict repr) is modelled by a
  fixed marker; it is unreachable in every studied property.
-/

/-! ## Character classes (Python regex classes and str methods) -/

/-- Python regex \s on the ASCII range: space, tab, newline, CR, VT, FF. -/
def isPySpace (c : Char) : Bool :=
  c = ' ' ∨ c = '\t' ∨ c = '\n' ∨ c = '\r' ∨ c = Char.ofNat 11 ∨ c = Char.ofNat 12

/-- The character class [ \t] used by the trailing-whitespace regex of clean_text. -/
def isHT (c : Char) : Bool := c = ' ' ∨ c = '\t'

/-- The literal character class [A-Za-z0-9_.] used for variable and condition keys. -/
def isWordChar (c : Char) : Bool :=
  ('A' ≤ c ∧ c ≤ 'Z') ∨ ('a' ≤ c ∧ c ≤ 'z') ∨ ('0' ≤ c ∧ c ≤ '9') ∨ c = '_' ∨ c = '.'

def isAsciiDigit (c : Char) : Bool := '0' ≤ c ∧ c ≤ '9'

/-- ASCII upcasing of one char, used to model the IGNORECASE tag keywords. -/
def asciiUpper (c : Char) : Char :=
  if 'a' ≤ c ∧ c ≤ 'z' then Char.ofNat (c.toNat - 32) else c

/-- str.lower() on the ASCII range plus the accented i appearing in "sí". -/
def pyCharLower (c : Char) : Char :=
  if 'A' ≤ c ∧ c ≤ 'Z' then Char.ofNat (c.toNat + 32)
  else if c = 'Í' then 'í' else c

/-- str.upper() on the ASCII range plus the accented i. -/
def pyCharUpper (c : Char) : Char :=
  if 'a' ≤ c ∧ c ≤ 'z' then Char.ofNat (c.toNat - 32)
  else if c = 'í' then 'Í' else c

def pyLower (s : List Char) : List Char := s.map pyCharLower

def pyUpper (s : List Char) : List Char := s.map pyCharUpper

/-- str.strip(): drop whitespace from both ends. -/
def stripChars (s : List Char) : List Char :=
  ((s.dropWhile isPySpace).reverse.dropWhile isPySpace).reverse

/-- Helper for str.title(): the Bool records whether the previous char was cased. -/
def pyTitleAux : Bool → List Char → List Char
  | _, [] => []
  | prev, c :: cs =>
    let cased := (('A' ≤ c ∧ c ≤ 'Z') ∨ ('a' ≤ c ∧ c ≤ 'z') ∨ c = 'í' ∨ c = 'Í' : Bool)
    (if cased then (if prev then pyCharLower c else pyCharUpper c) else c) ::
      pyTitleAux cased cs

/-- str.title(): uppercase every cased char that follows a non-cased one, lowercase the rest. -/
def pyTitle (s : List Char) : List Char := pyTitleAux false s

/-! ## The value model (JSON values held by a rendering Context) -/

mutual
/-- Values a Context can hold: Python bool, int, float, str, None and nested dicts,
exactly the types produced by json.load for a case file (arrays not modelled, see
header).  A dict is an association list with unique keys, spelled as the mutual
type EntryList so that recursion over nested dicts stays structural. -/
inductive Value where
  | vBool (b : Bool)
  | vInt (n : Int)
  | vFloat (q : Rat)
  | vStr (s : List Char)
  | vNull
  | vDict (entries : EntryList)
inductive EntryList where
  | nil
  | cons (key : List Char) (val : Value) (rest : EntryList)
end

/-- A Context is a Python dict from string keys to values. -/
abbrev Ctx := EntryList

/-- Convenience constructor for contexts in concrete statements. -/
def toEntries : List (List Char × Value) → EntryList
  | [] => .nil
  | (k, v) :: rest => .cons k v (toEntries rest)

/-- Python dict lookup (d[k] when k in d); keys of a parsed JSON object are unique,
an association list looked up at the first match models that. -/
def dictGet : EntryList → List Char → Option Value
  | .nil, _ => none
  | .cons k v rest, key => if k = key then some v else dictGet rest key

/-- Python len() of a dict. -/
def entLen : EntryList → Nat
  | .nil => 0
  | .cons _ _ rest => entLen rest + 1

/-- Python "a.b.c".split("."). -/
def splitOnDot : List Char → List (List Char)
  | [] => [[]]
  | '.' :: cs => [] :: splitOnDot cs
  | c :: cs =>
    match splitOnDot cs with
    | l :: ls => (c :: l) :: ls
    | [] => [[c]]

/-- The loop of _get_ctx_value: walk the dotted path; any absent segment or
non-dict intermediate yields None. -/
def ctxWalk : Value → List (List Char) → Value
  | cur, [] => cur
  | .vDict d, p :: ps =>
    match dictGet d p with
    | some v => ctxWalk v ps
    | none => .vNull
  | _, _ :: _ => .vNull

/-- _get_ctx_value: ctx.get(key) for a plain key, else the dotted-path walk.
A missing key returns Python None, modelled as vNull. -/
def get_ctx_value (ctx : Ctx) (key : List Char) : Value :=
  if '.' ∈ key then ctxWalk (.vDict ctx) (splitOnDot key)
  else (dictGet ctx key).getD .vNull

/-! ## Truthiness (_truthy) -/

/-- The string literals _truthy treats as true after strip().lower(). -/
def trueLits : List (List Char) :=
  ["true".data, "sí".data, "si".data, "1".data, "y".data, "yes".data]

/-- The string literals _truthy treats as false after strip().lower(). -/
def falseLits : List (List Char) :=
  ["false".data, "no".data, "0".data, "".data, "null".data, "none".data]

/-- _truthy: bool directly; None false; numbers false exactly at zero; strings by
the two literal tables after strip().lower(), any other string true; any other
type (a dict here) true. -/
def truthy : Value → Bool
  | .vBool b => b
  | .vNull => false
  | .vInt n => n ≠ 0
  | .vFloat q => q ≠ 0
  | .vStr s =>
    let v := pyLower (stripChars s)
    if v ∈ trueLits then true
    else if v ∈ falseLits then false
    else true
  | .vDict _ => true

/-! ## Literal parsing (_parse_literal) -/

/-- Consume one optional leading sign; returns (isNegative, rest). -/
def readSign : List Char → Bool × List Char
  | '+' :: cs => (false, cs)
  | '-' :: cs => (true, cs)
  | cs => (false, cs)

/-- Read a run of decimal digits allowing single underscores between digits
(Python int()/float() literal digits); returns (value, digit count, rest).
A '_' not followed by a digit, or one starting the run, is left in rest
(which then fails the caller's completeness check, as in Python). -/
def takeUDigits : Nat → Nat → List Char → Nat × Nat × List Char
  | acc, len, [] => (acc, len, [])
  | acc, len, c :: cs =>
    if isAsciiDigit c then takeUDigits (acc * 10 + (c.toNat - 48)) (len + 1) cs
    else if c = '_' ∧ len ≠ 0 then
      match cs with
      | d :: cs' =>
        if isAsciiDigit d then takeUDigits (acc * 10 + (d.toNat - 48)) (len + 1) cs'
        else (acc, len, c :: cs)
      | [] => (acc, len, c :: cs)
    else (acc, len, c :: cs)

/-- Python int(t) on an already stripped token (sign, underscored digits, nothing else). -/
def pyParseInt (t : List Char) : Option Int :=
  let (neg, t1) := readSign t
  let (v, len, rest) := takeUDigits 0 0 t1
  if len = 0 ∨ rest ≠ [] then none
  else some (if neg then -(v : Int) else (v : Int))

/-- Python float(t) for a token containing a '.', as an exact rational:
sign, integer part, '.', fraction part (at least one digit overall),
optional exponent.  IEEE rounding/overflow not modelled (see header). -/
def pyParseFloat (t : List Char) : Option Rat :=
  let (neg, t1) := readSign t
  let (ip, ilen, t2) := takeUDigits 0 0 t1
  match t2 with
  | '.' :: t3 =>
    let (fp, flen, t4) := takeUDigits 0 0 t3
    if ilen = 0 ∧ flen = 0 then none
    else
      let mant : Rat := (ip : Rat) + (fp : Rat) / ((10 : Rat) ^ flen)
      let signed : Rat := if neg then -mant else mant
      match t4 with
      | [] => some signed
      | e :: t5 =>
        if e = 'e' ∨ e = 'E' then
          let (eneg, t6) := readSign t5
          let (ev, elen, t7) := takeUDigits 0 0 t6
          if elen = 0 ∨ t7 ≠ [] then none
          else some (if eneg then signed / ((10 : Rat) ^ ev) else signed * ((10 : Rat) ^ ev))
        else none
  | _ => none

/-- _parse_literal: strip, then case-insensitive true/false, null/none, quoted
string (quotes stripped, no escapes), float when the token contains a '.',
int otherwise; any parse failure falls back to the raw (stripped) string. -/
def parse_literal (token : List Char) : Value :=
  let t := stripChars token
  let tl := pyLower t
  if tl = "true".data then .vBool true
  else if tl = "false".data then .vBool false
  else if tl = "null".data ∨ tl = "none".data then .vNull
  else if (t.head? = some '\'' ∧ t.getLast? = some '\'') ∨
          (t.head? = some '"' ∧ t.getLast? = some '"') then
    .vStr ((t.drop 1).dropLast)
  else if '.' ∈ t then
    match pyParseFloat t with
    | some q => .vFloat q
    | none => .vStr t
  else
    match pyParseInt t with
    | some n => .vInt n
    | none => .vStr t

/-! ## Python equality (the == used by _eval_condition) -/

/-- The numeric tower of Python ==: bool counts as 0/1, int and float compare
by numeric value. -/
def numVal : Value → Option Rat
  | .vBool b => some (if b then 1 else 0)
  | .vInt n => some (n : Rat)
  | .vFloat q => some q
  | _ => none

mutual
/-- Python == on the value model.  Booleans, ints and floats compare through the
numeric tower; strings by content; None only to None; dicts by equal size and
pointwise-equal values at shared keys (Python dict equality; JSON object keys
are unique); any other mixed pair is unequal. -/
def pyEq : Value → Value → Bool
  | .vDict d, .vDict e => decide (entLen d = entLen e) && pyEqEntries d (.vDict e)
  | a, b =>
    match numVal a, numVal b with
    | some x, some y => decide (x = y)
    | _, _ =>
      match a, b with
      | .vStr s, .vStr t => decide (s = t)
      | .vNull, .vNull => true
      | _, _ => false
def pyEqEntries : EntryList → Value → Bool
  | .nil, _ => true
  | .cons k v rest, other =>
    (match other with
     | .vDict e =>
       match dictGet e k with
       | some w => pyEq v w
       | none => false
     | _ => false) && pyEqEntries rest other
end

/-! ## Condition evaluation (_eval_condition) -/

def dropSpaces (cs : List Char) : List Char := cs.dropWhile isPySpace

/-- Model of re.match applied to the expression that _eval_condition receives
(already stripped by its caller): a nonempty [A-Za-z0-9_.]+ key, \s*, the
two operator characters, \s*, then (.+)$ — the remainder, which must be
nonempty and newline-free (the DOTALL flag is not set on this regex, and the
expression carries no trailing newline once stripped). -/
def matchOpSplit (op1 op2 : Char) (expr : List Char) : Option (List Char × List Char) :=
  let (key, rest1) := expr.span (fun c => isWordChar c)
  if key = [] then none
  else
    match dropSpaces rest1 with
    | c1 :: c2 :: rest3 =>
      if c1 = op1 ∧ c2 = op2 then
        let lit := dropSpaces rest3
        if lit ≠ [] ∧ '\n' ∉ lit then some (key, lit) else none
      else none
    | _ => none

/-- _eval_condition: strip; a leading '!' negates the truthiness of the rest
(itself stripped); otherwise try key == literal, then key != literal, both by
structural Python equality on the parsed literal; otherwise the bare dotted
path's truthiness.  The Python try/except around a clause cannot fire on this
model's inputs (every operation here is total), so it is not represented. -/
def eval_condition (expr0 : List Char) (ctx : Ctx) : Bool :=
  let expr := stripChars expr0
  if expr.head? = some '!' then ! truthy (get_ctx_value ctx (stripChars (expr.drop 1)))
  else
    match matchOpSplit '=' '=' expr with
    | some (key, lit) => pyEq (get_ctx_value ctx key) (parse_literal lit)
    | none =>
      match matchOpSplit '!' '=' expr with
      | some (key, lit) => ! pyEq (get_ctx_value ctx key) (parse_literal lit)
      | none => truthy (get_ctx_value ctx expr)

/-! ## The AST (_Node / _IfNode) and the tag scanner (_TAG_RE) -/

mutual
/-- AST nodes: a text fragment or a conditional with its ordered clauses
(_Node children are str or _IfNode; the sum type makes that exact).  Spelled
as a mutual family so that evaluation is structural recursion. -/
inductive Node where
  | text (s : List Char)
  | cond (clauses : ClauseSeq)
/-- The ordered clause list of an _IfNode: (condition or none for ELSE, body). -/
inductive ClauseSeq where
  | nil
  | cons (c : Option (List Char)) (body : NodeSeq) (rest : ClauseSeq)
/-- An ordered child sequence (_Node.children). -/
inductive NodeSeq where
  | nil
  | cons (n : Node) (rest : NodeSeq)
end

def toNodeSeq : List Node → NodeSeq
  | [] => .nil
  | n :: rest => .cons n (toNodeSeq rest)

def toClauseSeq : List (Option (List Char) × NodeSeq) → ClauseSeq
  | [] => .nil
  | (c, b) :: rest => .cons c b (toClauseSeq rest)

/-- The four tag keywords of _TAG_RE. -/
inductive TagName where
  | tIF
  | tELIF
  | tELSE
  | tENDIF
deriving DecidableEq

/-- A scanned tag: keyword plus the raw optional argument (regex group 2). -/
structure TagTok where
  name : TagName
  arg : Option (List Char)

/-- Case-insensitive literal match of an (uppercase) keyword against the input,
returning the rest on success (models the IGNORECASE alternation of _TAG_RE). -/
def matchCI : List Char → List Char → Option (List Char)
  | [], cs => some cs
  | _ :: _, [] => none
  | p :: ps, c :: cs => if asciiUpper c = p then matchCI ps cs else none

/-- Try the keyword alternation IF | ELIF | ELSE | /IF at the current position.
The four literals diverge within their first three characters, so at most one
alternative can consume the input, exactly as in the regex. -/
def matchKeyword (cs : List Char) : Option (TagName × List Char) :=
  match matchCI "IF".data cs with
  | some rest => some (.tIF, rest)
  | none =>
    match matchCI "ELIF".data cs with
    | some rest => some (.tELIF, rest)
    | none =>
      match matchCI "ELSE".data cs with
      | some rest => some (.tELSE, rest)
      | none =>
        match matchCI "/IF".data cs with
        | some rest => some (.tENDIF, rest)
        | none => none

/-- Split the input at the first occurrence of "]]" (the lazy argument of
_TAG_RE ends at the earliest closing bracket pair). -/
def findRR : List Char → Option (List Char × List Char)
  | [] => none
  | ']' :: ']' :: rest => some ([], rest)
  | c :: cs =>
    match findRR cs with
    | some (a, b) => some (c :: a, b)
    | none => none

/-- Match _TAG_RE at the head of the input: two left brackets, a keyword, then
either an immediate "]]" (no argument group) or at least one whitespace char
followed by everything up to the first "]]" (the greedy one-or-more whitespace
plus lazy DOTALL argument; since the argument is stripped later only the total
span between keyword and "]]" matters).  Returns the tag and the rest of the
input after the match. -/
def matchTagAt : List Char → Option (TagTok × List Char)
  | '[' :: '[' :: cs =>
    match matchKeyword cs with
    | some (name, cs2) =>
      match cs2 with
      | ']' :: ']' :: rest => some (⟨name, none⟩, rest)
      | c :: cs3 =>
        if isPySpace c then
          match findRR (c :: cs3) with
          | some (between, rest) => some (⟨name, some between⟩, rest)
          | none => none
        else none
      | [] => none
    | none => none
  | _ => none

/-- The finditer loop over _TAG_RE: the list of (text before the tag, tag)
pairs and the trailing text after the last tag.  Fuel drives the recursion
(see header); on exhausted fuel the remainder is treated as trailing text,
which is also what the scan does when no tag matches. -/
def scanPieces : Nat → List Char → List Char → List (List Char × TagTok) × List Char
  | 0, cs, acc => ([], acc.reverse ++ cs)
  | _ + 1, [], acc => ([], acc.reverse)
  | f + 1, c :: cs, acc =>
    match matchTagAt (c :: cs) with
    | some (tag, rest) =>
      let (ps, tr) := scanPieces f rest []
      ((acc.reverse, tag) :: ps, tr)
    | none => scanPieces f cs (c :: acc)

/-- Scan a whole text for tags. -/
def scanText (text : List Char) : List (List Char × TagTok) × List Char :=
  scanPieces (text.length + 1) text []

/-! ## The stack parser (_parse_to_ast) -/

/-- One open conditional of the parser stack: the children accumulated so far in
the enclosing sequence (reversed), the clauses already finished (reversed) and
the condition of the clause currently being filled (none for an ELSE clause).
This is the functional reading of the Python stack, whose entries alternate
between the saved parent _Node and the open _IfNode, with cur aliasing the
clause currently written into. -/
structure Frame where
  parentAcc : List Node
  doneClauses : List (Option (List Char) × NodeSeq)
  curCond : Option (List Char)

/-- The argument a tag carries, as the parser reads it: (m.group(2) or "").strip(). -/
def tagArg (t : TagTok) : List Char := stripChars (t.arg.getD [])

/-- The tag loop of _parse_to_ast.  The Python guard "len(stack) < 2 or stack[-1]
is not an _IfNode" is equivalent, under the stack discipline (the stack is the
root followed by parent/_IfNode pairs), to the frame list being empty.  Error
messages are the Python ones. -/
def parseLoop : List (List Char × TagTok) → List Frame → List Node →
    Except String (List Frame × List Node)
  | [], frames, cur => .ok (frames, cur)
  | (txt, tag) :: rest, frames, cur =>
    let cur := if txt = [] then cur else Node.text txt :: cur
    match tag.name with
    | .tIF =>
      parseLoop rest (⟨cur, [], some (tagArg tag)⟩ :: frames) []
    | .tELIF =>
      match frames with
      | [] => .error "Etiqueta [[ELIF]] sin [[IF]] correspondiente"
      | fr :: fs =>
        parseLoop rest
          (⟨fr.parentAcc, (fr.curCond, toNodeSeq cur.reverse) :: fr.doneClauses,
            some (tagArg tag)⟩ :: fs) []
    | .tELSE =>
      match frames with
      | [] => .error "Etiqueta [[ELSE]] sin [[IF]] correspondiente"
      | fr :: fs =>
        parseLoop rest
          (⟨fr.parentAcc, (fr.curCond, toNodeSeq cur.reverse) :: fr.doneClauses,
            none⟩ :: fs) []
    | .tENDIF =>
      match frames with
      | [] => .error "Etiqueta [[/IF]] sin [[IF]] correspondiente"
      | fr :: fs =>
        let clauses := ((fr.curCond, toNodeSeq cur.reverse) :: fr.doneClauses).reverse
        parseLoop rest fs (Node.cond (toClauseSeq clauses) :: fr.parentAcc)

/-- End-of-input finalization: every still-open conditional keeps the clauses it
accumulated (in Python the partially built _IfNode objects already sit inside
their parents, so returning root yields exactly this tree). -/
def unwind : List Frame → List Node → List Node
  | [], cur => cur.reverse
  | fr :: fs, cur =>
    unwind fs
      (Node.cond (toClauseSeq (((fr.curCond, toNodeSeq cur.reverse) :: fr.doneClauses).reverse))
        :: fr.parentAcc)

/-- _parse_to_ast: scan, run the tag loop, append nonempty trailing text to the
current (innermost) clause, finalize open conditionals.  A ValueError raised on
an unmatched ELIF/ELSE//IF is the error case. -/
def parse_to_ast (text : List Char) : Except String (List Node) :=
  let trailing := (scanText text).2
  match parseLoop (scanText text).1 [] [] with
  | .error e => .error e
  | .ok (frames, cur) =>
    .ok (unwind frames (if trailing = [] then cur else Node.text trailing :: cur))

/-! ## The tree evaluator (_eval_ast) -/

mutual
/-- _eval_ast over a child sequence: text verbatim, conditionals by clause
selection, concatenated in order. -/
def evalSeq (ctx : Ctx) : NodeSeq → List Char
  | .nil => []
  | .cons n rest => evalNode ctx n ++ evalSeq ctx rest
/-- _eval_ast on one child. -/
def evalNode (ctx : Ctx) : Node → List Char
  | .text s => s
  | .cond cls => evalClauses ctx cls []
/-- The clause loop of _eval_ast.  Python keeps the tentatively chosen clause
node and evaluates it after the loop; since evaluation is pure, this model
carries the evaluated text of the tentative choice instead, which is
extensionally the same: an ELSE clause overwrites the accumulator and the loop
continues (Python has no break there), a true condition returns its body's
text immediately (break), and the initial accumulator is empty (Python: chosen
is None and contributes nothing). -/
def evalClauses (ctx : Ctx) : ClauseSeq → List Char → List Char
  | .nil, chosen => chosen
  | .cons none body rest, _ => evalClauses ctx rest (evalSeq ctx body)
  | .cons (some c) body rest, chosen =>
    if eval_condition c ctx then evalSeq ctx body else evalClauses ctx rest chosen
end

/-- _eval_ast at the root. -/
def eval_ast (ctx : Ctx) (nodes : List Node) : List Char :=
  evalSeq ctx (toNodeSeq nodes)

/-- render_conditionals: parse then evaluate; the parse error propagates. -/
def render_conditionals (text : List Char) (ctx : Ctx) : Except String (List Char) :=
  match parse_to_ast text with
  | .error e => .error e
  | .ok ast => .ok (eval_ast ctx ast)

/-! ## Variable substitution (_VAR_RE, _apply_filter, render_variables) -/

/-- Literal (case-sensitive) match of a keyword, returning the rest. -/
def matchLit : List Char → List Char → Option (List Char)
  | [], cs => some cs
  | _ :: _, [] => none
  | p :: ps, c :: cs => if c = p then matchLit ps cs else none

/-- The case-sensitive filter alternation (upper|lower|title) of _VAR_RE. -/
def matchFilterName (cs : List Char) : Option (List Char × List Char) :=
  match matchLit "upper".data cs with
  | some rest => some ("upper".data, rest)
  | none =>
    match matchLit "lower".data cs with
    | some rest => some ("lower".data, rest)
    | none =>
      match matchLit "title".data cs with
      | some rest => some ("title".data, rest)
      | none => none

/-- The key part shared by _VAR_RE and _RE_VAR_LEFT after the two left braces:
\s* and a nonempty [A-Za-z0-9_.]+ key; returns the key and the rest. -/
def varHeadSplitCore (cs : List Char) : Option (List Char × List Char) :=
  match (dropSpaces cs).span (fun c => isWordChar c) with
  | ([], _) => none
  | (key, cs2) => some (key, cs2)

/-- The shared head of _VAR_RE and _RE_VAR_LEFT: two left braces, then the key
part. -/
def varHeadSplit : List Char → Option (List Char × List Char)
  | '{' :: '{' :: cs => varHeadSplitCore cs
  | _ => none

/-- The closing brace pair of both placeholder patterns. -/
def closeBraces : List Char → Option (List Char)
  | '}' :: '}' :: rest => some rest
  | _ => none

/-- The filter part of both patterns after the pipe: \s*, one of the three
filter names, \s* and the closing braces; returns the filter and the rest. -/
def filterTail (cs4 : List Char) : Option (List Char × List Char) :=
  match matchFilterName (dropSpaces cs4) with
  | some (f, cs6) =>
    match closeBraces (dropSpaces cs6) with
    | some rest => some (f, rest)
    | none => none
  | none => none

/-- Match _VAR_RE at the head of the input: two left braces, \s*, a nonempty
[A-Za-z0-9_.]+ key, \s*, optionally a pipe with \s* and one of the three
filter names, then \s* and two right braces.  When a pipe is present but the
filter part fails, the regex cannot fall back to the no-filter branch (that
branch requires an immediate right brace where the pipe stands), so the whole
match fails, as here. -/
def matchVarAt (cs : List Char) : Option (List Char × Option (List Char) × List Char) :=
  match varHeadSplit cs with
  | none => none
  | some (key, cs2) =>
    match dropSpaces cs2 with
    | '|' :: cs4 =>
      match filterTail cs4 with
      | some (f, rest) => some (key, some f, rest)
      | none => none
    | '}' :: '}' :: rest => some (key, none, rest)
    | _ => none

/-- str() of a value, as _apply_filter uses it.  Python int/bool reprs are
exact; a float repr is approximated by the rational's repr and a dict repr by
a fixed marker (both unreachable in every studied property, see header). -/
def pyStr : Value → List Char
  | .vStr s => s
  | .vBool b => if b then "True".data else "False".data
  | .vInt n => (toString n).data
  | .vFloat q => (toString q).data
  | .vNull => "None".data
  | .vDict _ => "{}".data

/-- _apply_filter: None renders as the empty string; otherwise str() the value
and apply the filter, where no filter, the empty filter (Python "if not filt")
and any unrecognized filter name all leave the string as is. -/
def apply_filter (val : Value) (filt : Option (List Char)) : List Char :=
  match val with
  | .vNull => []
  | v =>
    let s := pyStr v
    match filt with
    | none => s
    | some [] => s
    | some f =>
      if f = "upper".data then pyUpper s
      else if f = "lower".data then pyLower s
      else if f = "title".data then pyTitle s
      else s

/-- The repl closure of render_variables: look the key up and apply the filter. -/
def varRepl (ctx : Ctx) (key : List Char) (filt : Option (List Char)) : List Char :=
  apply_filter (get_ctx_value ctx key) filt

/-- The re.sub loop of render_variables: leftmost non-overlapping matches of
_VAR_RE replaced by the repl result.  Fuel-driven; on exhausted fuel the
remainder is copied verbatim (unreachable from the wrapper, and also the
behavior on match-free input). -/
def renderVarsAux (ctx : Ctx) : Nat → List Char → List Char
  | 0, cs => cs
  | _ + 1, [] => []
  | f + 1, c :: cs =>
    match matchVarAt (c :: cs) with
    | some (key, filt, rest) => varRepl ctx key filt ++ renderVarsAux ctx f rest
    | none => c :: renderVarsAux ctx f cs

/-- render_variables. -/
def render_variables (text : List Char) (ctx : Ctx) : List Char :=
  renderVarsAux ctx (text.length + 1) text

/-! ## Text cleaning (_clean_text) -/

/-- Drop the trailing [ \t]+ of one line. -/
def stripLineEnd (line : List Char) : List Char :=
  (line.reverse.dropWhile isHT).reverse

/-- Split on newline characters (each line is newline-free). -/
def splitNl : List Char → List (List Char)
  | [] => [[]]
  | c :: cs =>
    if c = '\n' then [] :: splitNl cs
    else
      match splitNl cs with
      | l :: ls => (c :: l) :: ls
      | [] => [[c]]

/-- Rejoin lines with newlines. -/
def joinNl : List (List Char) → List Char
  | [] => []
  | [l] => l
  | l :: ls => l ++ '\n' :: joinNl ls

/-- re.sub(r"[ \t]+$", "", out, flags=MULTILINE): strip the trailing blanks of
every line ($ matches before each newline and at the end). -/
def stripTrailingBlanks (cs : List Char) : List Char :=
  joinNl ((splitNl cs).map stripLineEnd)

/-- Emit a run of n newlines after collapse: three or more become exactly two. -/
def emitNl (n : Nat) : List Char :=
  if n ≥ 3 then ['\n', '\n'] else List.replicate n '\n'

/-- re.sub(r"\n{3,}", "\n\n", out): the counter accumulates the current newline
run, flushed through emitNl at each non-newline character and at the end. -/
def collapseNlAux : Nat → List Char → List Char
  | n, [] => emitNl n
  | n, c :: cs =>
    if c = '\n' then collapseNlAux (n + 1) cs
    else emitNl n ++ c :: collapseNlAux 0 cs

def collapseNl (cs : List Char) : List Char := collapseNlAux 0 cs

/-- _clean_text: strip trailing blanks per line, then collapse blank-line runs. -/
def clean_text (out : List Char) : List Char :=
  collapseNl (stripTrailingBlanks out)

/-! ## Strict-mode residue patterns (_RE_VAR_LEFT, _RE_TAG_LEFT) -/

/-- Match _RE_VAR_LEFT at the head of the input.  The regex tries the optional
filter group first (greedy ?), then the bare form; both are reflected here. -/
def matchVarLeftAt (cs : List Char) : Bool :=
  match varHeadSplit cs with
  | none => false
  | some (_, cs2) =>
    (match dropSpaces cs2 with
     | '|' :: cs4 => (filterTail cs4).isSome
     | _ => false) ||
    (closeBraces (dropSpaces cs2)).isSome

/-- re.search with _RE_VAR_LEFT: some position matches. -/
def searchVarLeft (cs : List Char) : Bool :=
  cs.tails.any matchVarLeftAt

/-- Match _RE_TAG_LEFT at the head of the input: two left brackets, a keyword
(IGNORECASE), a greedy run of non-right-bracket characters, then two right
brackets.  Since the run cannot contain right brackets, the match succeeds
exactly when the first right bracket after the keyword starts a "]]" pair —
narrower than _TAG_RE, whose lazy argument may contain single right brackets. -/
def matchTagLeftAt : List Char → Bool
  | '[' :: '[' :: cs =>
    (match matchKeyword cs with
     | some (_, cs2) =>
       (match (cs2.span (fun c => c ≠ ']')).2 with
        | ']' :: ']' :: _ => true
        | _ => false)
     | none => false)
  | _ => false

/-- re.search with _RE_TAG_LEFT. -/
def searchTagLeft (cs : List Char) : Bool :=
  cs.tails.any matchTagLeftAt

/-- Whether _TAG_RE matches anywhere (the scanner's own notion of containing a
control tag). -/
def hasTagAnywhere (cs : List Char) : Bool :=
  cs.tails.any (fun s => (matchTagAt s).isSome)

/-! ## The full render (render_text, render_docx) -/

/-- The strict-mode leftover check of render_text: the Python code collects the
residue category names and raises when any is present. -/
def strictLeftovers (out : List Char) : List String :=
  (if searchVarLeft out then ["placeholders \x7b\x7b...\x7d\x7d"] else []) ++
  (if searchTagLeft out then ["etiquetas [[IF/ELIF/ELSE/IF]]"] else [])

/-- render_text: conditionals, then variables, then cleaning; in strict mode a
remaining placeholder or tag pattern raises a ValueError naming the residue
categories. -/
def render_text (raw : List Char) (ctx : Ctx) (estricto : Bool) :
    Except String (List Char) :=
  match render_conditionals raw ctx with
  | .error e => .error e
  | .ok out1 =>
    let out := clean_text (render_variables out1 ctx)
    if estricto then
      match strictLeftovers out with
      | [] => .ok out
      | ls => .error ("Quedaron marcadores sin resolver: " ++ String.intercalate ", " ls)
    else .ok out

/-- render_docx reads the template text, renders it and only then writes the
output document; reading and writing are I/O shims outside the engine, so the
model returns the text that would be written — an error value means the
exception propagated before text_to_doc ran, hence no document is written. -/
def render_docx (raw : List Char) (ctx : Ctx) (estricto : Bool) :
    Except String (List Char) :=
  render_text raw ctx estricto

/-! ## Statement vocabulary: clause selection, tag bookkeeping, spec-side pipeline -/

/-- The first clause (in declaration order) whose condition is present and
evaluates true; used to characterize the evaluator's actual selection. -/
def firstTrueClause (ctx : Ctx) : ClauseSeq → Option NodeSeq
  | .nil => none
  | .cons none _ rest => firstTrueClause ctx rest
  | .cons (some c) body rest =>
    if eval_condition c ctx then some body else firstTrueClause ctx rest

/-- The last clause without a condition (the last ELSE), if any. -/
def lastElseClause : ClauseSeq → Option NodeSeq
  | .nil => none
  | .cons none body rest =>
    match lastElseClause rest with
    | some b => some b
    | none => some body
  | .cons (some _) _ rest => lastElseClause rest

/-- The keywords of the tags the scanner finds in a text, in order. -/
def tagNamesOf (text : List Char) : List TagName :=
  (scanText text).1.map (fun p => p.2.name)

/-- Whether the tag stream contains an ELIF/ELSE//IF at a point where no
conditional is open (depth counts the IF tags not yet closed by /IF). -/
def hasUnmatched : List TagName → Nat → Bool
  | [], _ => false
  | .tIF :: rest, d => hasUnmatched rest (d + 1)
  | .tELIF :: rest, d => if d = 0 then true else hasUnmatched rest d
  | .tELSE :: rest, d => if d = 0 then true else hasUnmatched rest d
  | .tENDIF :: rest, d => if d = 0 then true else hasUnmatched rest (d - 1)

/-- The number of conditionals still open after the tag stream (assuming no
unmatched closer was hit). -/
def finalDepth : List TagName → Nat → Nat
  | [], d => d
  | .tIF :: rest, d => finalDepth rest (d + 1)
  | .tENDIF :: rest, d => finalDepth rest (d - 1)
  | _ :: rest, d => finalDepth rest d

/-- Whether an Except is the error case. -/
def isErr {α : Type} : Except String α → Bool
  | .error _ => true
  | .ok _ => false

/-- Spec-side pipeline for the refinement claim C9, following the spec's words:
the Variable Substitution Pass and subsequent cleanup (and strict check) alone,
with no conditional-rendering stage. -/
def variablesOnlyRender (raw : List Char) (ctx : Ctx) (estricto : Bool) :
    Except String (List Char) :=
  let out := clean_text (render_variables raw ctx)
  if estricto then
    match strictLeftovers out with
    | [] => .ok out
    | ls => .error ("Quedaron marcadores sin resolver: " ++ String.intercalate ", " ls)
  else .ok out

/-- No [ \t] character stands immediately before a newline or at the end
(the fixpoint property of the trailing-blank strip). -/
def noTrailHT : List Char → Bool
  | [] => true
  | [c] => ! isHT c
  | c :: d :: cs => (! (isHT c && decide (d = '\n'))) && noTrailHT (d :: cs)

/-! ## Helper lemmas -/

theorem isPySpace_eq_true_iff (c : Char) :
    isPySpace c = true ↔
      c = ' ' ∨ c = '\t' ∨ c = '\n' ∨ c = '\r' ∨ c = Char.ofNat 11 ∨ c = Char.ofNat 12 := by
  simp [isPySpace]

theorem isWordChar_not_space {c : Char} (h : isWordChar c = true) : isPySpace c = false := by
  cases hs : isPySpace c
  · rfl
  · exfalso
    rcases (isPySpace_eq_true_iff c).1 hs with h' | h' | h' | h' | h' | h' <;>
      subst h' <;> simp [isWordChar] at h

theorem dropWhile_eq_self_of_head {p : Char → Bool} {l : List Char}
    (h : ∀ c, l.head? = some c → p c = false) : l.dropWhile p = l := by
  cases l with
  | nil => rfl
  | cons c cs => simp [List.dropWhile, h c rfl]

theorem stripChars_eq_self {l : List Char}
    (h1 : ∀ c, l.head? = some c → isPySpace c = false)
    (h2 : ∀ c, l.getLast? = some c → isPySpace c = false) :
    stripChars l = l := by
  unfold stripChars
  rw [dropWhile_eq_self_of_head h1]
  rw [dropWhile_eq_self_of_head (by simpa using h2), List.reverse_reverse]

/-! ## Claim C1: clause selection order -/

/-- C1, counterexample.  The claim says the first clause whose condition is
absent (an else-branch) is chosen once reached and no clause after it is
examined.  On the code, an else-branch does not stop the clause loop: with
clauses (Z | else A | X with X true) the body B of the clause placed after the
else is emitted, not A; and with two else-branches the second one is emitted. -/
theorem c1_counterexample :
    render_conditionals "[[IF Z]]n[[ELSE]]A[[ELIF X]]B[[/IF]]".data
        (toEntries [("X".data, .vBool true)]) = .ok "B".data ∧
    render_conditionals "[[IF Za]]n[[ELSE]]A[[ELSE]]B[[/IF]]".data .nil = .ok "B".data ∧
    "B".data ≠ "A".data :=
  ⟨rfl, rfl, by decide⟩

/-! ## Claim C2: unrecognized filter names -/

/-- C2, counterexample.  The claim says a placeholder with an unrecognized
filter is replaced by the looked-up value unfiltered.  On the code the
substitution pattern only admits the three known filter names, so the token
with filter foo is left in the text verbatim instead of becoming ana. -/
theorem c2_counterexample :
    render_variables "{{name|foo}}".data (toEntries [("name".data, .vStr "ana".data)])
        = "{{name|foo}}".data ∧
    "{{name|foo}}".data ≠ "ana".data :=
  ⟨by decide, by decide⟩

/-! ## Claim C3: typed equality -/

/-- C3, counterexample.  The claim says values of different types among boolean,
number, string, null are never equal under the condition X == literal.  On the
code, Python equality identifies booleans with numbers: with X bound to the
boolean true, the condition X == 1 evaluates true although the looked-up value
is a boolean and the parsed literal is the integer 1. -/
theorem c3_counterexample :
    get_ctx_value (toEntries [("X".data, .vBool true)]) "X".data = .vBool true ∧
    parse_literal "1".data = .vInt 1 ∧
    eval_condition "X == 1".data (toEntries [("X".data, .vBool true)]) = true :=
  ⟨rfl, rfl, by decide⟩

/-! ## Claim C4: string truthiness -/

/-- C4, counterexample.  The claim says a string is falsy exactly when its
case-insensitive form is in the falsy table, every other non-empty string being
truthy.  The code strips whitespace first: the one-space string is non-empty
and its lowercased form is not in the table, yet it is falsy. -/
theorem c4_counterexample :
    pyLower " ".data = " ".data ∧
    " ".data ∉ falseLits ∧
    " ".data ≠ "".data ∧
    truthy (.vStr " ".data) = false :=
  ⟨rfl, by decide, by decide, by decide⟩

/-- Helper: the truthy and falsy string tables are disjoint. -/
theorem lits_disjoint {v : List Char} (h : v ∈ trueLits) : v ∉ falseLits := by
  fin_cases h <;> decide

/-- C4, amended: a string value is falsy under a bare-path or negation condition
exactly when its whitespace-stripped, lowercased form is one of the six falsy
literals; every other string (non-empty after stripping or not spelled as such
a literal) is truthy. -/
theorem c4_amended (s : List Char) :
    truthy (.vStr s) = false ↔ pyLower (stripChars s) ∈ falseLits := by
  simp only [truthy]
  by_cases ht : pyLower (stripChars s) ∈ trueLits
  · simp [ht, lits_disjoint ht]
  · by_cases hf : pyLower (stripChars s) ∈ falseLits <;> simp [ht, hf]

/-! ## Claim C5: round-trip idempotence -/

/-- C5, counterexample.  A strict render can succeed while its output still
contains a sequence the tag scanner recognizes: the strict residue pattern
cannot match a tag whose argument contains a right bracket, but the scanner
can.  Rendering the template of one placeholder whose context value is such a
tag succeeds strictly, yet re-rendering the produced output with an empty
Context consumes the tag and returns the empty string, not the output. -/
theorem c5_counterexample :
    render_text "{{X}}".data (toEntries [("X".data, .vStr "[[IF a]b]]".data)]) true
        = .ok "[[IF a]b]]".data ∧
    render_text "[[IF a]b]]".data .nil false = .ok "".data ∧
    "".data ≠ "[[IF a]b]]".data :=
  ⟨rfl, rfl, by decide⟩

/-! ## Claim C7: missing and null values substitute as empty -/

/-- C7: a null (or absent, which looks up as null) value substitutes as the
empty string whatever the filter; the substitution replacement for any key
that looks up null is empty (never a null literal, never the placeholder,
which the match consumed); a dotted lookup through a non-mapping intermediate
yields null rather than an error (the model is total by construction); and the
two boundary scenarios of the spec render to the empty string. -/
theorem c7_missing_renders_empty :
    (∀ filt : Option (List Char), apply_filter .vNull filt = []) ∧
    (∀ (ctx : Ctx) (key : List Char) (filt : Option (List Char)),
        get_ctx_value ctx key = .vNull → varRepl ctx key filt = []) ∧
    (∀ (v : Value) (p : List Char) (ps : List (List Char)),
        (∀ d : EntryList, v ≠ .vDict d) → ctxWalk v (p :: ps) = .vNull) ∧
    render_variables "{{a.b.c}}".data
        (toEntries [("a".data, .vDict (toEntries [("b".data, .vStr "x".data)]))]) = [] ∧
    render_variables "{{missing}}".data .nil = [] := by
  refine ⟨fun _ => rfl, ?_, ?_, by decide, by decide⟩
  · intro ctx key filt h
    simp only [varRepl, h]
    rfl
  · intro v p ps h
    cases v with
    | vDict d => exact absurd rfl (h d)
    | vBool b => rfl
    | vInt n => rfl
    | vFloat q => rfl
    | vStr s => rfl
    | vNull => rfl

/-- C7, witness: the hypothesis-bearing parts applied at concrete inputs. -/
theorem c7_witness :
    varRepl (toEntries [("a".data, .vStr "x".data)]) "zz".data none = [] ∧
    ctxWalk (.vStr "hello".data) ["b".data, "c".data] = .vNull :=
  ⟨c7_missing_renders_empty.2.1 (toEntries [("a".data, .vStr "x".data)]) "zz".data none rfl,
   c7_missing_renders_empty.2.2.1 (.vStr "hello".data) "b".data ["c".data]
     (fun _ h => Value.noConfusion h)⟩

/-! ## Symbolic evaluation of comparison conditions -/

theorem takeWhile_word_key (key : List Char) (d : Char) (tail : List Char)
    (hd : isWordChar d = false) (hk : ∀ c ∈ key, isWordChar c = true) :
    (key ++ d :: tail).takeWhile (fun c => isWordChar c) = key := by
  induction key with
  | nil => simp [List.takeWhile_cons, hd]
  | cons c cs ih =>
    simp only [List.cons_append, List.takeWhile_cons, hk c (by simp)]
    simp [ih (fun e he => hk e (by simp [he]))]

theorem dropWhile_word_key (key : List Char) (d : Char) (tail : List Char)
    (hd : isWordChar d = false) (hk : ∀ c ∈ key, isWordChar c = true) :
    (key ++ d :: tail).dropWhile (fun c => isWordChar c) = d :: tail := by
  induction key with
  | nil => simp [List.dropWhile_cons, hd]
  | cons c cs ih =>
    simp only [List.cons_append, List.dropWhile_cons, hk c (by simp)]
    simp [ih (fun e he => hk e (by simp [he]))]

theorem span_word_key (key : List Char) (d : Char) (tail : List Char)
    (hd : isWordChar d = false) (hk : ∀ c ∈ key, isWordChar c = true) :
    (key ++ d :: tail).span (fun c => isWordChar c) = (key, d :: tail) := by
  rw [List.span_eq_take_drop, takeWhile_word_key key d tail hd hk,
      dropWhile_word_key key d tail hd hk]

theorem dropSpaces_cons_space (cs : List Char) : dropSpaces (' ' :: cs) = dropSpaces cs := by
  simp [dropSpaces, List.dropWhile_cons, show isPySpace ' ' = true from rfl]

theorem dropSpaces_eq_self {l : List Char}
    (h : ∀ c, l.head? = some c → isPySpace c = false) : dropSpaces l = l :=
  dropWhile_eq_self_of_head h

theorem matchOpSplit_form (op1 op2 c1 c2 : Char) (key lit : List Char)
    (k1 : key ≠ []) (k2 : ∀ c ∈ key, isWordChar c = true)
    (hc1 : isPySpace c1 = false)
    (l1 : lit ≠ []) (l2 : '\n' ∉ lit)
    (l3 : ∀ c, lit.head? = some c → isPySpace c = false) :
    matchOpSplit op1 op2 (key ++ ' ' :: c1 :: c2 :: ' ' :: lit)
      = if c1 = op1 ∧ c2 = op2 then some (key, lit) else none := by
  unfold matchOpSplit
  rw [span_word_key key ' ' (c1 :: c2 :: ' ' :: lit) (by decide) k2]
  simp only [k1, if_neg k1]
  rw [dropSpaces_cons_space]
  rw [dropSpaces_eq_self (by
    intro c h
    simp only [List.head?_cons, Option.some.injEq] at h
    rw [← h]; exact hc1)]
  by_cases h : c1 = op1 ∧ c2 = op2
  · simp only [h.1, h.2, if_pos (And.intro rfl rfl)]
    rw [dropSpaces_cons_space, dropSpaces_eq_self l3]
    simp [l1, l2, h]
  · simp [h]

theorem stripChars_word_op (key lit : List Char) (op1 op2 : Char)
    (k1 : key ≠ []) (k2 : ∀ c ∈ key, isWordChar c = true)
    (l1 : lit ≠ [])
    (l4 : ∀ c, lit.getLast? = some c → isPySpace c = false) :
    stripChars (key ++ ' ' :: op1 :: op2 :: ' ' :: lit)
      = key ++ ' ' :: op1 :: op2 :: ' ' :: lit := by
  apply stripChars_eq_self
  · intro c h
    obtain ⟨k0, ktl, rfl⟩ := List.exists_cons_of_ne_nil k1
    simp only [List.cons_append, List.head?_cons, Option.some.injEq] at h
    rw [← h]
    exact isWordChar_not_space (k2 k0 (by simp))
  · intro c h
    rw [List.getLast?_append_cons] at h
    have h' : ([' ', op1, op2, ' '] ++ lit).getLast? = some c := h
    rw [List.getLast?_append_of_ne_nil _ l1] at h'
    exact l4 c h'

theorem head_ne_bang {key : List Char} (tail : List Char)
    (k1 : key ≠ []) (k2 : ∀ c ∈ key, isWordChar c = true) :
    ¬ (key ++ tail).head? = some '!' := by
  obtain ⟨k0, ktl, rfl⟩ := List.exists_cons_of_ne_nil k1
  simp only [List.cons_append, List.head?_cons, Option.some.injEq]
  intro h
  have := k2 k0 (by simp)
  rw [h] at this
  simp [isWordChar] at this

/-- The equality form of _eval_condition, symbolically: for a wordlike key and a
trimmed newline-free literal token, the condition key == lit evaluates to the
Python equality of the looked-up value and the parsed literal. -/
theorem eval_condition_eq_form (ctx : Ctx) (key lit : List Char)
    (k1 : key ≠ []) (k2 : ∀ c ∈ key, isWordChar c = true)
    (l1 : lit ≠ []) (l2 : '\n' ∉ lit)
    (l3 : ∀ c, lit.head? = some c → isPySpace c = false)
    (l4 : ∀ c, lit.getLast? = some c → isPySpace c = false) :
    eval_condition (key ++ " == ".data ++ lit) ctx
      = pyEq (get_ctx_value ctx key) (parse_literal lit) := by
  have e1 : (" == ".data : List Char) = [' ', '=', '=', ' '] := rfl
  rw [e1, List.append_assoc]
  simp only [List.cons_append, List.nil_append]
  unfold eval_condition
  rw [stripChars_word_op key lit '=' '=' k1 k2 l1 l4]
  rw [if_neg (head_ne_bang _ k1 k2)]
  rw [matchOpSplit_form '=' '=' '=' '=' key lit k1 k2 (by decide) l1 l2 l3]
  rw [if_pos (And.intro rfl rfl)]

/-- The inequality form of _eval_condition, symbolically. -/
theorem eval_condition_neq_form (ctx : Ctx) (key lit : List Char)
    (k1 : key ≠ []) (k2 : ∀ c ∈ key, isWordChar c = true)
    (l1 : lit ≠ []) (l2 : '\n' ∉ lit)
    (l3 : ∀ c, lit.head? = some c → isPySpace c = false)
    (l4 : ∀ c, lit.getLast? = some c → isPySpace c = false) :
    eval_condition (key ++ " != ".data ++ lit) ctx
      = ! pyEq (get_ctx_value ctx key) (parse_literal lit) := by
  have e1 : (" != ".data : List Char) = [' ', '!', '=', ' '] := rfl
  rw [e1, List.append_assoc]
  simp only [List.cons_append, List.nil_append]
  unfold eval_condition
  rw [stripChars_word_op key lit '!' '=' k1 k2 l1 l4]
  rw [if_neg (head_ne_bang _ k1 k2)]
  rw [matchOpSplit_form '=' '=' '!' '=' key lit k1 k2 (by decide) l1 l2 l3]
  rw [if_neg (by decide)]
  rw [matchOpSplit_form '!' '=' '!' '=' key lit k1 k2 (by decide) l1 l2 l3]
  rw [if_pos (And.intro rfl rfl)]

theorem forall_head_from_eq {l : List Char} {c0 : Char}
    (he : l.head? = some c0) (h0 : isPySpace c0 = false) :
    ∀ c, l.head? = some c → isPySpace c = false := by
  intro c h
  rw [he] at h
  injection h with h
  rw [← h]
  exact h0

theorem forall_last_from_eq {l : List Char} {c0 : Char}
    (he : l.getLast? = some c0) (h0 : isPySpace c0 = false) :
    ∀ c, l.getLast? = some c → isPySpace c = false := by
  intro c h
  rw [he] at h
  injection h with h
  rw [← h]
  exact h0

/-! ## Claim C3, amended -/

/-- C3, amended: the equality condition evaluates to the structural Python
equality of looked-up value and parsed literal, and that equality separates
the types string, null and number/boolean from each other — except that a
boolean compares equal to a number through the numeric tower: true equals the
number 1 and false equals 0 (the one divergence the counterexample forces on
the claim). -/
theorem c3_amended :
    (∀ (ctx : Ctx) (key lit : List Char),
        key ≠ [] → (∀ c ∈ key, isWordChar c = true) →
        lit ≠ [] → '\n' ∉ lit →
        (∀ c, lit.head? = some c → isPySpace c = false) →
        (∀ c, lit.getLast? = some c → isPySpace c = false) →
        eval_condition (key ++ " == ".data ++ lit) ctx
          = pyEq (get_ctx_value ctx key) (parse_literal lit)) ∧
    (∀ (s : List Char) (n : Int) (q : Rat) (b : Bool),
        pyEq (.vStr s) (.vInt n) = false ∧ pyEq (.vInt n) (.vStr s) = false ∧
        pyEq (.vStr s) (.vFloat q) = false ∧ pyEq (.vFloat q) (.vStr s) = false ∧
        pyEq (.vStr s) (.vBool b) = false ∧ pyEq (.vBool b) (.vStr s) = false ∧
        pyEq (.vStr s) .vNull = false ∧ pyEq .vNull (.vStr s) = false ∧
        pyEq .vNull (.vInt n) = false ∧ pyEq (.vInt n) .vNull = false ∧
        pyEq .vNull (.vBool b) = false ∧ pyEq (.vBool b) .vNull = false) ∧
    (∀ (b : Bool) (n : Int),
        pyEq (.vBool b) (.vInt n) = true ↔ (if b then (1 : Int) else 0) = n) := by
  refine ⟨fun ctx key lit h1 h2 h3 h4 h5 h6 =>
      eval_condition_eq_form ctx key lit h1 h2 h3 h4 h5 h6, ?_, ?_⟩
  · intro s n q b
    refine ⟨rfl, rfl, rfl, rfl, rfl, rfl, rfl, rfl, rfl, rfl, rfl, rfl⟩
  · intro b n
    show decide ((if b then (1 : Rat) else 0) = (n : Rat)) = true ↔ _
    rw [decide_eq_true_eq]
    cases b <;>
      exact ⟨fun h => by exact_mod_cast h, fun h => by exact_mod_cast h⟩

/-- C3, witness for the amended theorem: the equality-reduction part applied at
the counterexample's input. -/
theorem c3_amended_witness :
    eval_condition ("X".data ++ " == ".data ++ "1".data)
        (toEntries [("X".data, .vBool true)])
      = pyEq (get_ctx_value (toEntries [("X".data, .vBool true)]) "X".data)
          (parse_literal "1".data) :=
  c3_amended.1 (toEntries [("X".data, .vBool true)]) "X".data "1".data
    (by decide) (by decide) (by decide) (by decide)
    (forall_head_from_eq rfl (by decide)) (forall_last_from_eq rfl (by decide))

/-! ## Claim C10: absent paths equal the null literal -/

/-- C10: for a wordlike dotted path whose lookup yields null (in particular any
path absent from the Context, since _get_ctx_value returns None for those),
the condition path == null (and path == none) evaluates true and
path != null evaluates false; equality conditions therefore cannot separate a
key explicitly set to null from a missing key. -/
theorem c10_absent_eq_null :
    ∀ (ctx : Ctx) (key : List Char),
      key ≠ [] → (∀ c ∈ key, isWordChar c = true) →
      get_ctx_value ctx key = .vNull →
      eval_condition (key ++ " == ".data ++ "null".data) ctx = true ∧
      eval_condition (key ++ " == ".data ++ "none".data) ctx = true ∧
      eval_condition (key ++ " != ".data ++ "null".data) ctx = false := by
  intro ctx key k1 k2 habs
  refine ⟨?_, ?_, ?_⟩
  · rw [eval_condition_eq_form ctx key "null".data k1 k2 (by decide) (by decide)
      (forall_head_from_eq rfl (by decide)) (forall_last_from_eq rfl (by decide)), habs]
    rfl
  · rw [eval_condition_eq_form ctx key "none".data k1 k2 (by decide) (by decide)
      (forall_head_from_eq rfl (by decide)) (forall_last_from_eq rfl (by decide)), habs]
    rfl
  · rw [eval_condition_neq_form ctx key "null".data k1 k2 (by decide) (by decide)
      (forall_head_from_eq rfl (by decide)) (forall_last_from_eq rfl (by decide)), habs]
    rfl

/-- C10, witness at the absent key missing and the empty Context. -/
theorem c10_witness :
    eval_condition ("missing".data ++ " == ".data ++ "null".data) .nil = true ∧
    eval_condition ("missing".data ++ " != ".data ++ "null".data) .nil = false :=
  ⟨(c10_absent_eq_null .nil "missing".data (by decide) (by decide) rfl).1,
   (c10_absent_eq_null .nil "missing".data (by decide) (by decide) rfl).2.2⟩

/-! ## Claims C6 and C8: parser error discipline -/

/-- The tag loop raises exactly when the tag stream reaches an ELIF, ELSE or
/IF at open-conditional depth zero; the frame list length is that depth. -/
theorem parseLoop_err_iff (pieces : List (List Char × TagTok)) :
    ∀ (frames : List Frame) (cur : List Node),
      isErr (parseLoop pieces frames cur)
        = hasUnmatched (pieces.map (fun p => p.2.name)) frames.length := by
  induction pieces with
  | nil => intro frames cur; rfl
  | cons p rest ih =>
    intro frames cur
    obtain ⟨txt, tag⟩ := p
    obtain ⟨name, arg⟩ := tag
    cases name with
    | tIF =>
      simp only [parseLoop, List.map_cons, hasUnmatched]
      rw [ih]
      simp
    | tELIF =>
      cases frames with
      | nil => simp [parseLoop, hasUnmatched, isErr]
      | cons fr fs =>
        simp only [parseLoop, List.map_cons, hasUnmatched]
        rw [ih]
        simp
    | tELSE =>
      cases frames with
      | nil => simp [parseLoop, hasUnmatched, isErr]
      | cons fr fs =>
        simp only [parseLoop, List.map_cons, hasUnmatched]
        rw [ih]
        simp
    | tENDIF =>
      cases frames with
      | nil => simp [parseLoop, hasUnmatched, isErr]
      | cons fr fs =>
        simp only [parseLoop, List.map_cons, hasUnmatched]
        rw [ih]
        simp

/-- C6: a template whose tag stream reaches an ELIF, ELSE or END-IF (spelled
/IF) while no conditional is open makes the tag parser raise a ValueError; the
error propagates through render_text / render_docx, so the render aborts and
(render_docx modelling the write as its ok value) no output document is
written. -/
theorem c6_unmatched_tag_errors :
    ∀ (text : List Char) (ctx : Ctx) (estricto : Bool),
      hasUnmatched (tagNamesOf text) 0 = true →
      isErr (parse_to_ast text) = true ∧
      isErr (render_docx text ctx estricto) = true := by
  intro text ctx e h
  have hp : isErr (parseLoop (scanText text).1 [] []) = true := by
    rw [parseLoop_err_iff]
    exact h
  have hpa : isErr (parse_to_ast text) = true := by
    unfold parse_to_ast
    cases hres : parseLoop (scanText text).1 [] [] with
    | error msg => simp [isErr]
    | ok v => rw [hres] at hp; simp [isErr] at hp
  refine ⟨hpa, ?_⟩
  unfold render_docx render_text render_conditionals
  cases hres : parse_to_ast text with
  | error msg => simp [isErr]
  | ok ast => rw [hres] at hpa; simp [isErr] at hpa

/-- C6, witness: a lone END-IF tag. -/
theorem c6_witness :
    hasUnmatched (tagNamesOf "x[[/IF]]y".data) 0 = true ∧
    isErr (parse_to_ast "x[[/IF]]y".data) = true ∧
    isErr (render_docx "x[[/IF]]y".data .nil false) = true :=
  ⟨by decide, c6_unmatched_tag_errors "x[[/IF]]y".data .nil false (by decide)⟩

/-- C8: when the tag stream never closes more than it opened (so the tag loop
reaches end-of-input) and one or more conditionals are still open there, the
parser does not raise; it finalizes the open conditionals with the content
they accumulated.  The concrete conjuncts exhibit the finalization: the
trailing text after an unclosed IF (even a nested one) becomes the body of the
innermost open clause, and evaluation proceeds on that AST. -/
theorem c8_unclosed_if_tolerated :
    (∀ text : List Char,
        hasUnmatched (tagNamesOf text) 0 = false →
        1 ≤ finalDepth (tagNamesOf text) 0 →
        isErr (parse_to_ast text) = false) ∧
    parse_to_ast "a[[IF x]]b".data
      = .ok [.text "a".data,
             .cond (.cons (some "x".data) (.cons (.text "b".data) .nil) .nil)] ∧
    parse_to_ast "[[IF x]][[IF y]]t".data
      = .ok [.cond (.cons (some "x".data)
          (.cons (.cond (.cons (some "y".data) (.cons (.text "t".data) .nil) .nil)) .nil)
          .nil)] ∧
    render_conditionals "a[[IF x]]b".data (toEntries [("x".data, .vBool true)])
      = .ok "ab".data := by
  refine ⟨?_, rfl, rfl, rfl⟩
  intro text h _hopen
  have hp : isErr (parseLoop (scanText text).1 [] []) = false := by
    rw [parseLoop_err_iff]
    exact h
  unfold parse_to_ast
  cases hres : parseLoop (scanText text).1 [] [] with
  | error msg => rw [hres] at hp; simp [isErr] at hp
  | ok v => simp [isErr]

/-- C8, witness: one unclosed IF with trailing text. -/
theorem c8_witness :
    hasUnmatched (tagNamesOf "a[[IF x]]b".data) 0 = false ∧
    1 ≤ finalDepth (tagNamesOf "a[[IF x]]b".data) 0 ∧
    isErr (parse_to_ast "a[[IF x]]b".data) = false :=
  ⟨by decide, by decide,
   c8_unclosed_if_tolerated.1 "a[[IF x]]b".data (by decide) (by decide)⟩

/-! ## Claim C9: no control tags means variables-only rendering -/

/-- If a scan produced no tag pairs, its trailing text is the whole input
(plus what had accumulated), at every fuel. -/
theorem scanPieces_no_pairs (cs : List Char) :
    ∀ (f : Nat) (acc : List Char),
      (scanPieces f cs acc).1 = [] → (scanPieces f cs acc).2 = acc.reverse ++ cs := by
  induction cs with
  | nil =>
    intro f acc _
    cases f with
    | zero => rfl
    | succ f => simp [scanPieces]
  | cons c cs ih =>
    intro f acc h
    cases f with
    | zero => rfl
    | succ f =>
      cases hm : matchTagAt (c :: cs) with
      | some p =>
        obtain ⟨tag, rest⟩ := p
        simp [scanPieces, hm] at h
      | none =>
        simp only [scanPieces, hm] at h ⊢
        rw [ih f (c :: acc) h]
        simp

/-- C9: a template in which the tag scanner finds no control tag passes through
the conditional-rendering stage unchanged, and the full render equals the
spec-side pipeline of variable substitution plus cleanup (and strict check)
alone. -/
theorem c9_no_tags_vars_only :
    ∀ (text : List Char) (ctx : Ctx) (estricto : Bool),
      (scanText text).1 = [] →
      render_conditionals text ctx = .ok text ∧
      render_text text ctx estricto = variablesOnlyRender text ctx estricto := by
  intro text ctx e h
  have htr : (scanText text).2 = text := by
    have h2 := scanPieces_no_pairs text (text.length + 1) []
    simp only [scanText] at h ⊢
    simpa using h2 h
  have hrc : render_conditionals text ctx = .ok text := by
    unfold render_conditionals parse_to_ast
    rw [h, htr]
    cases text with
    | nil => rfl
    | cons c cst =>
      simp only [parseLoop, unwind, reduceCtorEq, if_neg (List.cons_ne_nil c cst)]
      simp [eval_ast, toNodeSeq, evalSeq, evalNode]
  refine ⟨hrc, ?_⟩
  unfold render_text variablesOnlyRender
  rw [hrc]

/-- C9, witness: a tag-free template with one placeholder. -/
theorem c9_witness :
    render_conditionals "hola {{n}}".data (toEntries [("n".data, .vStr "x".data)])
        = .ok "hola {{n}}".data ∧
    render_text "hola {{n}}".data (toEntries [("n".data, .vStr "x".data)]) true
      = variablesOnlyRender "hola {{n}}".data (toEntries [("n".data, .vStr "x".data)]) true :=
  c9_no_tags_vars_only "hola {{n}}".data (toEntries [("n".data, .vStr "x".data)]) true rfl

/-! ## Claim C1, amended -/

/-- The clause loop of _eval_ast selects the first clause whose condition
evaluates true — examining clauses after an else-branch too — and, when no
condition is true, the last else-branch; with neither, the accumulator. -/
theorem evalClauses_selects (ctx : Ctx) :
    ∀ (cls : ClauseSeq) (chosen : List Char),
      evalClauses ctx cls chosen
        = (match firstTrueClause ctx cls with
           | some body => evalSeq ctx body
           | none =>
             match lastElseClause cls with
             | some body => evalSeq ctx body
             | none => chosen)
  | .nil, chosen => rfl
  | .cons none body rest, chosen => by
    have ih := evalClauses_selects ctx rest (evalSeq ctx body)
    rw [show evalClauses ctx (.cons none body rest) chosen
        = evalClauses ctx rest (evalSeq ctx body) from rfl]
    rw [ih]
    simp only [firstTrueClause, lastElseClause]
    cases firstTrueClause ctx rest with
    | some b => rfl
    | none =>
      cases lastElseClause rest with
      | some b => rfl
      | none => rfl
  | .cons (some c) body rest, chosen => by
    by_cases hc : eval_condition c ctx = true
    · rw [show evalClauses ctx (.cons (some c) body rest) chosen
          = if eval_condition c ctx then evalSeq ctx body
            else evalClauses ctx rest chosen from rfl]
      simp only [firstTrueClause, hc, if_pos]
    · have hc' : eval_condition c ctx = false := by
        cases h : eval_condition c ctx
        · rfl
        · exact absurd h hc
      have ih := evalClauses_selects ctx rest chosen
      rw [show evalClauses ctx (.cons (some c) body rest) chosen
          = if eval_condition c ctx then evalSeq ctx body
            else evalClauses ctx rest chosen from rfl]
      rw [hc', if_neg (by simp)]
      rw [ih]
      simp [firstTrueClause, lastElseClause, hc']

/-- C1, amended: a ConditionalNode emits the body of the first clause in
declaration order whose condition evaluates true, and the evaluator keeps
examining clauses after an else-branch (an else-branch does not stop the
loop); only when no condition evaluates true is an else-branch used, and then
the last one; with no true condition and no else-branch nothing is emitted. -/
theorem c1_amended (ctx : Ctx) (cls : ClauseSeq) :
    eval_ast ctx [Node.cond cls]
      = (match firstTrueClause ctx cls with
         | some body => evalSeq ctx body
         | none =>
           match lastElseClause cls with
           | some body => evalSeq ctx body
           | none => []) := by
  rw [show eval_ast ctx [Node.cond cls] = evalClauses ctx cls [] ++ [] from rfl]
  rw [List.append_nil, evalClauses_selects]

/-! ## Claim C5, amended: supporting lemmas -/

/-- When the tag scanner matches nowhere, a scan copies its input into the
trailing text, at every fuel. -/
theorem scanPieces_no_match (cs : List Char) (h : hasTagAnywhere cs = false) :
    ∀ (f : Nat) (acc : List Char), scanPieces f cs acc = ([], acc.reverse ++ cs) := by
  induction cs with
  | nil =>
    intro f acc
    cases f with
    | zero => rfl
    | succ f => simp [scanPieces]
  | cons c cs ih =>
    intro f acc
    rw [hasTagAnywhere, List.tails_cons, List.any_cons] at h
    simp only [Bool.or_eq_false_iff] at h
    have h1 : matchTagAt (c :: cs) = none := by
      cases hm : matchTagAt (c :: cs)
      · rfl
      · rw [hm] at h; simp at h
    have h2 : hasTagAnywhere cs = false := h.2
    cases f with
    | zero => rfl
    | succ f =>
      simp only [scanPieces, h1]
      rw [ih h2 f (c :: acc)]
      simp

/-- Any match of the substitution pattern _VAR_RE is also a match of the strict
residue pattern _RE_VAR_LEFT (the latter is what strict mode checks). -/
theorem matchVarAt_implies_left {cs : List Char} {x : List Char × Option (List Char) × List Char}
    (h : matchVarAt cs = some x) : matchVarLeftAt cs = true := by
  unfold matchVarAt at h
  unfold matchVarLeftAt
  cases hv : varHeadSplit cs with
  | none => rw [hv] at h; cases h
  | some p =>
    obtain ⟨key, cs2⟩ := p
    rw [hv] at h
    simp only at h ⊢
    split at h
    · rename_i cs4 heq
      rw [heq]
      cases hf : filterTail cs4 with
      | none => rw [hf] at h; cases h
      | some fr => simp [hf]
    · rename_i rest heq
      rw [heq]
      simp [closeBraces]
    · cases h

/-- When the strict residue search finds no placeholder pattern, the
substitution loop copies its input unchanged, at every fuel. -/
theorem renderVars_id (ctx : Ctx) (cs : List Char) (h : searchVarLeft cs = false) :
    ∀ f, renderVarsAux ctx f cs = cs := by
  induction cs with
  | nil =>
    intro f
    cases f with
    | zero => rfl
    | succ f => rfl
  | cons c cs ih =>
    intro f
    rw [searchVarLeft, List.tails_cons, List.any_cons] at h
    simp only [Bool.or_eq_false_iff] at h
    have h2 : matchVarAt (c :: cs) = none := by
      cases hm : matchVarAt (c :: cs) with
      | none => rfl
      | some x => rw [matchVarAt_implies_left hm] at h; exact absurd h.1 (by simp)
    cases f with
    | zero => rfl
    | succ f =>
      simp only [renderVarsAux, h2]
      rw [ih h.2 f]

/-! ## Idempotence of the text cleaner -/

theorem splitNl_cons_nl (cs : List Char) : splitNl ('\n' :: cs) = [] :: splitNl cs := by
  simp [splitNl]

theorem splitNl_cons_other {c : Char} (hc : ¬ c = '\n') (cs : List Char)
    {l0 : List Char} {ls : List (List Char)} (hS : splitNl cs = l0 :: ls) :
    splitNl (c :: cs) = (c :: l0) :: ls := by
  unfold splitNl
  rw [if_neg hc, hS]

theorem splitNl_ne_nil (cs : List Char) : splitNl cs ≠ [] := by
  induction cs with
  | nil => simp [splitNl]
  | cons c cs ih =>
    by_cases hc : c = '\n'
    · subst hc; simp [splitNl_cons_nl]
    · obtain ⟨l0, ls, hS⟩ := List.exists_cons_of_ne_nil ih
      rw [splitNl_cons_other hc cs hS]
      simp

theorem joinNl_splitNl (cs : List Char) : joinNl (splitNl cs) = cs := by
  induction cs with
  | nil => rfl
  | cons c cs ih =>
    by_cases hc : c = '\n'
    · subst hc
      rw [splitNl_cons_nl]
      obtain ⟨s0, srest, hS⟩ := List.exists_cons_of_ne_nil (splitNl_ne_nil cs)
      rw [hS]
      rw [hS] at ih
      simp only [joinNl, List.nil_append]
      rw [ih]
    · obtain ⟨l0, ls, hS⟩ := List.exists_cons_of_ne_nil (splitNl_ne_nil cs)
      rw [splitNl_cons_other hc cs hS]
      rw [hS] at ih
      cases ls with
      | nil => simpa [joinNl] using congrArg (c :: ·) ih
      | cons l2 ls2 =>
        simp only [joinNl, List.cons_append]
        simp only [joinNl] at ih
        rw [ih]

theorem head?_dropWhile_false {p : Char → Bool} {l : List Char} {c : Char}
    (h : (l.dropWhile p).head? = some c) : p c = false := by
  induction l with
  | nil => cases h
  | cons a as ih =>
    rw [List.dropWhile_cons] at h
    by_cases hp : p a = true
    · rw [if_pos hp] at h; exact ih h
    · rw [if_neg hp] at h
      injection h with h
      rw [← h]
      exact Bool.eq_false_iff.2 hp

theorem stripLineEnd_last {l : List Char} :
    ∀ c, (stripLineEnd l).getLast? = some c → isHT c = false := by
  intro c h
  unfold stripLineEnd at h
  rw [List.getLast?_reverse] at h
  exact head?_dropWhile_false h

theorem stripLineEnd_eq_self {l : List Char}
    (h : ∀ c, l.getLast? = some c → isHT c = false) : stripLineEnd l = l := by
  unfold stripLineEnd
  rw [dropWhile_eq_self_of_head (by simpa using h), List.reverse_reverse]

theorem mem_stripLineEnd {a : Char} {l : List Char} (h : a ∈ stripLineEnd l) : a ∈ l := by
  unfold stripLineEnd at h
  rw [List.mem_reverse] at h
  have := (List.dropWhile_sublist (l := l.reverse) isHT).subset h
  simpa using this

theorem mem_splitNl_no_nl (cs : List Char) : ∀ l ∈ splitNl cs, '\n' ∉ l := by
  induction cs with
  | nil => intro l hl; simp [splitNl] at hl; simp [hl]
  | cons c cs ih =>
    intro l hl
    by_cases hc : c = '\n'
    · subst hc
      rw [splitNl_cons_nl, List.mem_cons] at hl
      rcases hl with rfl | hl
      · simp
      · exact ih l hl
    · obtain ⟨l0, ls, hS⟩ := List.exists_cons_of_ne_nil (splitNl_ne_nil cs)
      rw [splitNl_cons_other hc cs hS, List.mem_cons] at hl
      rcases hl with rfl | hl
      · intro hmem
        rw [List.mem_cons] at hmem
        rcases hmem with h' | h'
        · exact hc h'.symm
        · exact ih l0 (by rw [hS]; simp) h'
      · exact ih l (by rw [hS]; simp [hl])

theorem noTrailHT_tail {c : Char} {cs : List Char} (h : noTrailHT (c :: cs) = true) :
    noTrailHT cs = true := by
  cases cs with
  | nil => rfl
  | cons d cs2 =>
    have h' : ((! (isHT c && decide (d = '\n'))) && noTrailHT (d :: cs2)) = true := h
    rw [Bool.and_eq_true] at h'
    exact h'.2

theorem noTrailHT_head_nl {c : Char} {cs2 : List Char}
    (h : noTrailHT (c :: '\n' :: cs2) = true) : isHT c = false := by
  have h' : ((! (isHT c && decide (('\n' : Char) = '\n'))) && noTrailHT ('\n' :: cs2)) = true := h
  rw [Bool.and_eq_true] at h'
  simpa using h'.1

theorem noTrailHT_line : ∀ (l : List Char), '\n' ∉ l →
    (∀ c, l.getLast? = some c → isHT c = false) → noTrailHT l = true
  | [], _, _ => rfl
  | [c], _, hlast => by
    have := hlast c rfl
    show (! isHT c) = true
    simp [this]
  | c :: d :: l2, hnl, hlast => by
    have hd : ¬ d = '\n' := fun e => hnl (by simp [e])
    have hrec := noTrailHT_line (d :: l2) (fun hm => hnl (by simp [hm]))
      (fun x hx => hlast x (by rw [List.getLast?_cons_cons]; exact hx))
    show ((! (isHT c && decide (d = '\n'))) && noTrailHT (d :: l2)) = true
    simp [hd, hrec]

theorem noTrailHT_append_nl : ∀ (l z : List Char), '\n' ∉ l →
    (∀ c, l.getLast? = some c → isHT c = false) → noTrailHT z = true →
    noTrailHT (l ++ '\n' :: z) = true
  | [], z, _, _, hz => by
    cases z with
    | nil => decide
    | cons d z2 =>
      show ((! (isHT '\n' && decide (d = '\n'))) && noTrailHT (d :: z2)) = true
      simp only [show isHT '\n' = false from rfl]
      simpa using hz
  | [c], z, hnl, hlast, hz => by
    have hc : isHT c = false := hlast c rfl
    have hn : noTrailHT ('\n' :: z) = true := by
      have := noTrailHT_append_nl [] z (by simp) (by intro x hx; cases hx) hz
      simpa using this
    show ((! (isHT c && decide (('\n' : Char) = '\n'))) && noTrailHT ('\n' :: z)) = true
    simp [hc, hn]
  | c :: d :: l2, z, hnl, hlast, hz => by
    have hd : ¬ d = '\n' := fun e => hnl (by simp [e])
    have hrec := noTrailHT_append_nl (d :: l2) z (fun hm => hnl (by simp [hm]))
      (fun x hx => hlast x (by rw [List.getLast?_cons_cons]; exact hx)) hz
    show ((! (isHT c && decide (d = '\n'))) && noTrailHT ((d :: l2) ++ '\n' :: z)) = true
    have hfd : (isHT c && decide (d = '\n')) = false := by simp [hd]
    rw [hfd]
    simpa using hrec

theorem noTrailHT_join : ∀ (L : List (List Char)),
    (∀ l ∈ L, '\n' ∉ l ∧ (∀ c, l.getLast? = some c → isHT c = false)) →
    noTrailHT (joinNl L) = true
  | [], _ => rfl
  | [l], h => noTrailHT_line l (h l (by simp)).1 (h l (by simp)).2
  | l :: l2 :: L2, h => by
    have hrec := noTrailHT_join (l2 :: L2) (fun m hm => h m (by simp [hm]))
    show noTrailHT (l ++ '\n' :: joinNl (l2 :: L2)) = true
    exact noTrailHT_append_nl l _ (h l (by simp)).1 (h l (by simp)).2 hrec

/-- Bridge: a globally trail-clean text has trail-clean lines. -/
theorem noTrailHT_lines (cs : List Char) (h : noTrailHT cs = true) :
    ∀ l ∈ splitNl cs, ∀ c, l.getLast? = some c → isHT c = false := by
  induction cs with
  | nil =>
    intro l hl c hc
    simp [splitNl] at hl
    subst hl
    cases hc
  | cons a cs ih =>
    intro l hl c hc
    by_cases ha : a = '\n'
    · subst ha
      rw [splitNl_cons_nl, List.mem_cons] at hl
      rcases hl with rfl | hl
      · cases hc
      · exact ih (noTrailHT_tail h) l hl c hc
    · obtain ⟨l0, ls, hS⟩ := List.exists_cons_of_ne_nil (splitNl_ne_nil cs)
      rw [splitNl_cons_other ha cs hS, List.mem_cons] at hl
      rcases hl with rfl | hl
      · cases hl0 : l0 with
        | nil =>
          rw [hl0] at hc
          have hca : c = a := by
            have : ([a] : List Char).getLast? = some a := rfl
            rw [this] at hc
            injection hc with hc
            exact hc.symm
          subst hca
          cases cs with
          | nil =>
            have h' : (! isHT c) = true := h
            simpa using h'
          | cons e cs2 =>
            by_cases he : e = '\n'
            · subst he
              exact noTrailHT_head_nl h
            · obtain ⟨m0, ms, hm⟩ := List.exists_cons_of_ne_nil (splitNl_ne_nil cs2)
              rw [splitNl_cons_other he cs2 hm] at hS
              rw [hl0] at hS
              cases hS
        | cons x xs =>
          rw [hl0] at hc
          rw [List.getLast?_cons_cons] at hc
          exact ih (noTrailHT_tail h) l0 (by rw [hS]; simp) c (by rw [hl0, hc])
      · exact ih (noTrailHT_tail h) l (by rw [hS]; simp [hl]) c hc

/-- A trail-clean text is a fixpoint of the trailing-blank strip. -/
theorem strip_of_noTrailHT {cs : List Char} (h : noTrailHT cs = true) :
    stripTrailingBlanks cs = cs := by
  unfold stripTrailingBlanks
  have hmap : (splitNl cs).map stripLineEnd = splitNl cs := by
    have h1 : ∀ l ∈ splitNl cs, stripLineEnd l = id l :=
      fun l hl => stripLineEnd_eq_self (noTrailHT_lines cs h l hl)
    rw [List.map_congr_left h1, List.map_id]
  rw [hmap, joinNl_splitNl]

/-- The trailing-blank strip produces trail-clean text. -/
theorem noTrailHT_strip (x : List Char) : noTrailHT (stripTrailingBlanks x) = true := by
  unfold stripTrailingBlanks
  apply noTrailHT_join
  intro l hl
  rw [List.mem_map] at hl
  obtain ⟨m, hm, rfl⟩ := hl
  exact ⟨fun hmem => mem_splitNl_no_nl x m hm (mem_stripLineEnd hmem),
         fun c hc => stripLineEnd_last c hc⟩

theorem emitNl_eq_replicate (n : Nat) :
    emitNl n = List.replicate (if n ≥ 3 then 2 else n) '\n' := by
  unfold emitNl
  by_cases h : n ≥ 3 <;> simp [h]

theorem collapse_absorb : ∀ (k : Nat) (w : List Char) (m : Nat),
    collapseNlAux m (List.replicate k '\n' ++ w) = collapseNlAux (m + k) w := by
  intro k
  induction k with
  | zero => intro w m; simp
  | succ k ih =>
    intro w m
    rw [List.replicate_succ, List.cons_append]
    rw [show collapseNlAux m ('\n' :: (List.replicate k '\n' ++ w))
        = collapseNlAux (m + 1) (List.replicate k '\n' ++ w) from by simp [collapseNlAux]]
    rw [ih w (m + 1)]
    congr 1
    omega

theorem collapse_idem : ∀ (y : List Char) (n : Nat),
    collapseNlAux 0 (collapseNlAux n y) = collapseNlAux n y := by
  intro y
  induction y with
  | nil =>
    intro n
    show collapseNlAux 0 (emitNl n) = emitNl n
    rw [emitNl_eq_replicate,
        show List.replicate (if n ≥ 3 then 2 else n) '\n'
          = List.replicate (if n ≥ 3 then 2 else n) '\n' ++ [] from by simp,
        collapse_absorb]
    show emitNl (0 + if n ≥ 3 then 2 else n) = _
    by_cases h : n ≥ 3 <;> simp [h, emitNl]
  | cons c ys ih =>
    intro n
    by_cases hc : c = '\n'
    · subst hc
      rw [show collapseNlAux n ('\n' :: ys) = collapseNlAux (n + 1) ys from by
        simp [collapseNlAux]]
      exact ih (n + 1)
    · rw [show collapseNlAux n (c :: ys) = emitNl n ++ c :: collapseNlAux 0 ys from by
        simp [collapseNlAux, hc]]
      rw [emitNl_eq_replicate, collapse_absorb]
      rw [show collapseNlAux (0 + if n ≥ 3 then 2 else n) (c :: collapseNlAux 0 ys)
          = emitNl (0 + if n ≥ 3 then 2 else n) ++ c :: collapseNlAux 0 (collapseNlAux 0 ys)
          from by simp [collapseNlAux, hc]]
      rw [ih 0]
      congr 1
      by_cases h : n ≥ 3 <;> simp [h, emitNl]

theorem noTrailHT_replicate_nl : ∀ (k : Nat) (w : List Char), noTrailHT w = true →
    noTrailHT (List.replicate k '\n' ++ w) = true
  | 0, w, hw => by simpa using hw
  | k + 1, w, hw => by
    rw [List.replicate_succ, List.cons_append]
    have hrec := noTrailHT_replicate_nl k w hw
    cases hk : List.replicate k '\n' ++ w with
    | nil => decide
    | cons d z =>
      rw [hk] at hrec
      show ((! (isHT '\n' && decide (d = '\n'))) && noTrailHT (d :: z)) = true
      simp [show isHT '\n' = false from rfl, hrec]

theorem collapseNlAux_cons_other {c : Char} (hc : ¬ c = '\n') (n : Nat) (t : List Char) :
    collapseNlAux n (c :: t) = emitNl n ++ c :: collapseNlAux 0 t := by
  simp [collapseNlAux, hc]

/-- The newline collapse preserves trail-cleanliness (it only touches newline
runs, and a newline is not a horizontal blank). -/
theorem noTrailHT_collapse : ∀ (y : List Char) (n : Nat), noTrailHT y = true →
    noTrailHT (collapseNlAux n y) = true
  | [], n, _ => by
    show noTrailHT (emitNl n) = true
    rw [emitNl_eq_replicate]
    have h0 := noTrailHT_replicate_nl (if n ≥ 3 then 2 else n) [] rfl
    simpa using h0
  | c :: ys, n, hy => by
    by_cases hc : c = '\n'
    · subst hc
      rw [show collapseNlAux n ('\n' :: ys) = collapseNlAux (n + 1) ys from by
        simp [collapseNlAux]]
      exact noTrailHT_collapse ys (n + 1) (noTrailHT_tail hy)
    · rw [collapseNlAux_cons_other hc, emitNl_eq_replicate]
      apply noTrailHT_replicate_nl
      cases ys with
      | nil =>
        have h1 : noTrailHT [c] = true := hy
        simpa [collapseNlAux, emitNl] using h1
      | cons d t =>
        by_cases hd : d = '\n'
        · subst hd
          have hys := noTrailHT_collapse ('\n' :: t) 0 (noTrailHT_tail hy)
          rw [show collapseNlAux 0 ('\n' :: t) = collapseNlAux 1 t from by
            simp [collapseNlAux]] at hys ⊢
          cases hR : collapseNlAux 1 t with
          | nil =>
            show (! isHT c) = true
            simp [noTrailHT_head_nl hy]
          | cons r0 rt =>
            rw [hR] at hys
            show ((! (isHT c && decide (r0 = '\n'))) && noTrailHT (r0 :: rt)) = true
            simp [noTrailHT_head_nl hy, hys]
        · have hys := noTrailHT_collapse (d :: t) 0 (noTrailHT_tail hy)
          rw [show collapseNlAux 0 (d :: t) = d :: collapseNlAux 0 t from by
            simp [collapseNlAux, hd, emitNl]] at hys ⊢
          show ((! (isHT c && decide (d = '\n'))) && noTrailHT (d :: collapseNlAux 0 t)) = true
          simp [hd, hys]

/-- _clean_text is idempotent. -/
theorem clean_text_idem (x : List Char) : clean_text (clean_text x) = clean_text x := by
  unfold clean_text collapseNl
  rw [strip_of_noTrailHT (noTrailHT_collapse _ 0 (noTrailHT_strip x))]
  exact collapse_idem _ 0

/-- C5, amended: rendering the output of a successful strict render again (with
an empty Context, strict or not) returns it unchanged, provided that output
additionally contains no sequence the tag scanner itself matches.  The proviso
is what the counterexample forces: the strict validator's tag-residue pattern
cannot match a tag whose argument contains a right bracket, while the scanner
can, so strict success alone does not rule such residue out. -/
theorem c5_amended :
    ∀ (tpl : List Char) (ctx : Ctx) (estricto : Bool) (out : List Char),
      render_text tpl ctx true = .ok out →
      hasTagAnywhere out = false →
      render_text out .nil estricto = .ok out := by
  intro tpl ctx e out h1 htag
  have hmain : (∃ z, out = clean_text z) ∧ searchVarLeft out = false ∧
      searchTagLeft out = false := by
    unfold render_text at h1
    cases hrc : render_conditionals tpl ctx with
    | error msg => rw [hrc] at h1; cases h1
    | ok mid =>
      rw [hrc] at h1
      dsimp only at h1
      cases hl : strictLeftovers (clean_text (render_variables mid ctx)) with
      | nil =>
        rw [hl] at h1
        injection h1 with h1
        refine ⟨⟨render_variables mid ctx, h1.symm⟩, ?_, ?_⟩
        · unfold strictLeftovers at hl
          by_cases hv : searchVarLeft (clean_text (render_variables mid ctx)) = true
          · rw [hv] at hl; simp at hl
          · rw [← h1]; exact Bool.eq_false_iff.2 hv
        · unfold strictLeftovers at hl
          by_cases hv : searchTagLeft (clean_text (render_variables mid ctx)) = true
          · rw [hv] at hl; simp at hl
          · rw [← h1]; exact Bool.eq_false_iff.2 hv
      | cons a as => rw [hl] at h1; cases h1
  obtain ⟨⟨z, hz⟩, hsv, hst⟩ := hmain
  have hscan : scanText out = ([], out) := by
    unfold scanText
    rw [scanPieces_no_match out htag (out.length + 1) []]
    simp
  have hs1 : (scanText out).1 = [] := by rw [hscan]
  have hs2 : (scanText out).2 = out := by rw [hscan]
  have hrc2 : render_conditionals out .nil = .ok out := by
    unfold render_conditionals parse_to_ast
    rw [hs1, hs2]
    cases out with
    | nil => rfl
    | cons c cst =>
      simp only [parseLoop, unwind, if_neg (List.cons_ne_nil c cst)]
      simp [eval_ast, toNodeSeq, evalSeq, evalNode]
  have hvars : render_variables out .nil = out := by
    unfold render_variables
    exact renderVars_id .nil out hsv _
  have hclean : clean_text out = out := by rw [hz]; exact clean_text_idem z
  unfold render_text
  rw [hrc2]
  dsimp only
  rw [hvars, hclean]
  cases e with
  | false => rfl
  | true =>
    have hle : strictLeftovers out = [] := by
      unfold strictLeftovers
      rw [hsv, hst]
      rfl
    simp only [if_pos]
    rw [hle]

/-- C5, witness for the amended theorem: a strict render whose output is free of
scanner-matchable tags re-renders to itself. -/
theorem c5_amended_witness :
    render_text "hola x".data .nil false = .ok "hola x".data :=
  c5_amended "hola {{n}}".data (toEntries [("n".data, .vStr "x".data)]) false
    "hola x".data rfl (by decide)

/-! ## Claim C2, amended (universal pass-through of unrecognized filters) -/

theorem varHeadSplit_not_brace {c : Char} (hc : ¬ c = '{') (cs : List Char) :
    varHeadSplit (c :: cs) = none := by
  unfold varHeadSplit
  split
  · rename_i heq
    injection heq with h1 _
    exact absurd h1 hc
  · rfl

theorem varHeadSplit_brace_not_brace {c : Char} (hc : ¬ c = '{') (cs : List Char) :
    varHeadSplit ('{' :: c :: cs) = none := by
  unfold varHeadSplit
  split
  · rename_i heq
    injection heq with _ h2
    injection h2 with h2 _
    exact absurd h2 hc
  · rfl

theorem closeBraces_not_brace {c : Char} (hc : ¬ c = '}') (cs : List Char) :
    closeBraces (c :: cs) = none := by
  unfold closeBraces
  split
  · rename_i heq
    injection heq with h1 _
    exact absurd h1 hc
  · rfl

theorem matchVarLeftAt_not_brace {c : Char} (hc : ¬ c = '{') (cs : List Char) :
    matchVarLeftAt (c :: cs) = false := by
  unfold matchVarLeftAt
  rw [varHeadSplit_not_brace hc]

theorem searchVarLeft_cons (c : Char) (cs : List Char) :
    searchVarLeft (c :: cs) = (matchVarLeftAt (c :: cs) || searchVarLeft cs) := by
  unfold searchVarLeft
  rw [List.tails_cons, List.any_cons]

theorem searchVarLeft_no_brace (cs : List Char) (h : '{' ∉ cs) :
    searchVarLeft cs = false := by
  induction cs with
  | nil => rfl
  | cons c cs ih =>
    rw [searchVarLeft_cons]
    have hc : ¬ c = '{' := fun e => h (by simp [e])
    rw [matchVarLeftAt_not_brace hc, ih (fun hm => h (by simp [hm]))]
    rfl

/-- A literal keyword of word characters matching a word-character run other
than itself must leave a nonempty word-character remainder before the closing
braces. -/
theorem matchLit_word_append : ∀ (kw f : List Char),
    (∀ c ∈ kw, isWordChar c = true) → (∀ c ∈ f, isWordChar c = true) → f ≠ kw →
    ∀ r, matchLit kw (f ++ ['}', '}']) = some r →
    ∃ g, g ≠ [] ∧ (∀ c ∈ g, isWordChar c = true) ∧ r = g ++ ['}', '}']
  | [], f, _, hw, hne, r, h => by
    refine ⟨f, hne, hw, ?_⟩
    injection h with h
    exact h.symm
  | k :: kw', [], hkw, _, _, r, h => by
    exfalso
    have hk : isWordChar k = true := hkw k (by simp)
    have hnk : ¬ ('}' : Char) = k := by
      intro e
      rw [← e] at hk
      simp [isWordChar] at hk
    simp only [List.nil_append] at h
    unfold matchLit at h
    rw [if_neg hnk] at h
    cases h
  | k :: kw', a :: f', hkw, hw, hne, r, h => by
    simp only [List.cons_append] at h
    unfold matchLit at h
    by_cases hak : a = k
    · rw [if_pos hak] at h
      have hne' : f' ≠ kw' := by
        intro e
        exact hne (by rw [hak, e])
      exact matchLit_word_append kw' f' (fun c hc => hkw c (by simp [hc]))
        (fun c hc => hw c (by simp [hc])) hne' r h
    · rw [if_neg hak] at h
      cases h

/-- The filter part of the placeholder patterns rejects a filter token that is
a word-character run other than upper, lower or title. -/
theorem filterTail_word_ne (f : List Char) (hf : f ≠ [])
    (hw : ∀ c ∈ f, isWordChar c = true)
    (h1 : f ≠ "upper".data) (h2 : f ≠ "lower".data) (h3 : f ≠ "title".data) :
    filterTail (f ++ ['}', '}']) = none := by
  have hds : dropSpaces (f ++ ['}', '}']) = f ++ ['}', '}'] := by
    apply dropSpaces_eq_self
    intro c hc
    obtain ⟨a, f', rfl⟩ := List.exists_cons_of_ne_nil hf
    simp only [List.cons_append, List.head?_cons, Option.some.injEq] at hc
    rw [← hc]
    exact isWordChar_not_space (hw a (by simp))
  have dispatch : ∀ (r : List Char),
      (∃ g, g ≠ [] ∧ (∀ c ∈ g, isWordChar c = true) ∧ r = g ++ ['}', '}']) →
      closeBraces (dropSpaces r) = none := by
    rintro r ⟨g, hg, hgw, rfl⟩
    obtain ⟨a, g', rfl⟩ := List.exists_cons_of_ne_nil hg
    rw [dropSpaces_eq_self (by
      intro c hc
      simp only [List.cons_append, List.head?_cons, Option.some.injEq] at hc
      rw [← hc]
      exact isWordChar_not_space (hgw a (by simp)))]
    refine closeBraces_not_brace ?_ _
    intro e
    have := hgw a (by simp)
    rw [e] at this
    simp [isWordChar] at this
  unfold filterTail matchFilterName
  rw [hds]
  cases hup : matchLit "upper".data (f ++ ['}', '}']) with
  | some r =>
    dsimp only
    rw [dispatch r (matchLit_word_append "upper".data f (by decide) hw h1 r hup)]
  | none =>
    dsimp only
    cases hlo : matchLit "lower".data (f ++ ['}', '}']) with
    | some r =>
      dsimp only
      rw [dispatch r (matchLit_word_append "lower".data f (by decide) hw h2 r hlo)]
    | none =>
      dsimp only
      cases hti : matchLit "title".data (f ++ ['}', '}']) with
      | some r =>
        dsimp only
        rw [dispatch r (matchLit_word_append "title".data f (by decide) hw h3 r hti)]
      | none => rfl

theorem varHeadSplit_token (key : List Char) (d : Char) (rest : List Char)
    (k1 : key ≠ []) (k2 : ∀ c ∈ key, isWordChar c = true) (hd : isWordChar d = false) :
    varHeadSplit ('{' :: '{' :: (key ++ d :: rest)) = some (key, d :: rest) := by
  obtain ⟨a, key', rfl⟩ := List.exists_cons_of_ne_nil k1
  rw [show varHeadSplit ('{' :: '{' :: (a :: key' ++ d :: rest))
      = varHeadSplitCore (a :: key' ++ d :: rest) from rfl]
  unfold varHeadSplitCore
  rw [dropSpaces_eq_self (by
    intro c hc
    simp only [List.cons_append, List.head?_cons, Option.some.injEq] at hc
    rw [← hc]
    exact isWordChar_not_space (k2 a (by simp)))]
  rw [span_word_key (a :: key') d rest hd k2]

/-- The strict residue pattern fails at a placeholder head whose filter token
is a word run other than the three recognized names. -/
theorem matchVarLeftAt_bad_filter (key f : List Char)
    (k1 : key ≠ []) (k2 : ∀ c ∈ key, isWordChar c = true)
    (hf : f ≠ []) (hw : ∀ c ∈ f, isWordChar c = true)
    (h1 : f ≠ "upper".data) (h2 : f ≠ "lower".data) (h3 : f ≠ "title".data) :
    matchVarLeftAt ('{' :: '{' :: (key ++ '|' :: (f ++ ['}', '}']))) = false := by
  unfold matchVarLeftAt
  rw [varHeadSplit_token key '|' (f ++ ['}', '}']) k1 k2 (by decide)]
  show ((match dropSpaces ('|' :: (f ++ ['}', '}'])) with
        | '|' :: cs4 => (filterTail cs4).isSome
        | _ => false) ||
      (closeBraces (dropSpaces ('|' :: (f ++ ['}', '}'])))).isSome) = false
  rw [show dropSpaces ('|' :: (f ++ ['}', '}'])) = '|' :: (f ++ ['}', '}']) from
    dropSpaces_eq_self (by intro c hc; injection hc with hc; rw [← hc]; decide)]
  show ((filterTail (f ++ ['}', '}'])).isSome || (closeBraces ('|' :: (f ++ ['}', '}']))).isSome)
      = false
  rw [filterTail_word_ne f hf hw h1 h2 h3, closeBraces_not_brace (by decide) _]
  rfl

/-- No position of a bad-filter placeholder token matches the strict residue
pattern, hence none matches the narrower substitution pattern either. -/
theorem searchVarLeft_token_false (key f : List Char)
    (k1 : key ≠ []) (k2 : ∀ c ∈ key, isWordChar c = true)
    (hf : f ≠ []) (hw : ∀ c ∈ f, isWordChar c = true)
    (h1 : f ≠ "upper".data) (h2 : f ≠ "lower".data) (h3 : f ≠ "title".data) :
    searchVarLeft ('{' :: '{' :: (key ++ '|' :: (f ++ ['}', '}']))) = false := by
  rw [searchVarLeft_cons, matchVarLeftAt_bad_filter key f k1 k2 hf hw h1 h2 h3]
  rw [searchVarLeft_cons]
  obtain ⟨a, key', rfl⟩ := List.exists_cons_of_ne_nil k1
  have ha : ¬ a = '{' := by
    intro e
    have := k2 a (by simp)
    rw [e] at this
    simp [isWordChar] at this
  rw [show matchVarLeftAt ('{' :: ((a :: key') ++ '|' :: (f ++ ['}', '}']))) = false from by
    unfold matchVarLeftAt
    rw [show ('{' :: ((a :: key') ++ '|' :: (f ++ ['}', '}'])))
        = '{' :: a :: (key' ++ '|' :: (f ++ ['}', '}'])) from rfl]
    rw [varHeadSplit_brace_not_brace ha]]
  rw [searchVarLeft_no_brace]
  · rfl
  · intro hm
    rcases List.mem_cons.1 hm with h' | h'
    · have := k2 a (by simp)
      rw [← h'] at this
      simp [isWordChar] at this
    · rcases List.mem_append.1 h' with hk | hrest
      · have := k2 '{' (by simp [hk])
        simp [isWordChar] at this
      · rcases List.mem_cons.1 hrest with hp | hp
        · exact absurd hp (by decide)
        · rcases List.mem_append.1 hp with hf' | hf'
          · have := hw '{' hf'
            simp [isWordChar] at this
          · simp at hf' 

/-- C2, amended: every placeholder token whose filter name is a word run other
than upper, lower or title is not matched by the substitution pattern at any
position and passes through verbatim into the output, for every Context; it is
not replaced by the looked-up value.  The filter-applying helper itself does
treat an unrecognized filter name as no filter, but the pattern never feeds it
one. -/
theorem c2_amended :
    (∀ (ctx : Ctx) (key f : List Char),
        key ≠ [] → (∀ c ∈ key, isWordChar c = true) →
        f ≠ [] → (∀ c ∈ f, isWordChar c = true) →
        f ≠ "upper".data → f ≠ "lower".data → f ≠ "title".data →
        render_variables (['{', '{'] ++ key ++ ['|'] ++ f ++ ['}', '}']) ctx
          = ['{', '{'] ++ key ++ ['|'] ++ f ++ ['}', '}']) ∧
    (∀ (v : Value) (f : List Char),
        f ∉ ["upper".data, "lower".data, "title".data] →
        apply_filter v (some f) = apply_filter v none) := by
  constructor
  · intro ctx key f k1 k2 hf hw h1 h2 h3
    have e0 : ['{', '{'] ++ key ++ ['|'] ++ f ++ ['}', '}']
        = '{' :: '{' :: (key ++ '|' :: (f ++ ['}', '}'])) := by
      simp [List.append_assoc]
    rw [e0]
    unfold render_variables
    exact renderVars_id ctx _ (searchVarLeft_token_false key f k1 k2 hf hw h1 h2 h3) _
  · intro v f hfmem
    simp only [List.mem_cons, List.not_mem_nil, or_false, not_or] at hfmem
    obtain ⟨h1, h2, h3⟩ := hfmem
    cases v <;> cases f <;> simp [apply_filter, h1, h2, h3]

/-- C2, witness for the amended theorem at the token with key name and filter
foo, in a Context that does bind name. -/
theorem c2_amended_witness :
    render_variables (['{', '{'] ++ "name".data ++ ['|'] ++ "foo".data ++ ['}', '}'])
        (toEntries [("name".data, .vStr "ana".data)])
      = ['{', '{'] ++ "name".data ++ ['|'] ++ "foo".data ++ ['}', '}'] ∧
    apply_filter (.vStr "ana".data) (some "foo".data)
      = apply_filter (.vStr "ana".data) none :=
  ⟨c2_amended.1 (toEntries [("name".data, .vStr "ana".data)]) "name".data "foo".data
      (by decide) (by decide) (by decide) (by decide) (by decide) (by decide) (by decide),
   c2_amended.2 (.vStr "ana".data) "foo".data (by decide)⟩
